import Mathlib

/-!
Verification development for the candidate-generation-and-constrained-search
engine of `SudokuSpeed.cpp` (Jane Street "Somewhat Square Sudoku" solver).

Modelling conventions.  A C++ digit string is modelled as the list of the
digit values of its characters (character `c` maps to `c - '0'`), so a
9-character string becomes a `List Nat` of length 9.  The `int` bit masks of
the solver are modelled as `Nat` with the same bitwise operations `|||`,
`&&&`, `<<<` (digits are at most 9 in the real data, so no 32-bit overflow
occurs; claims about the overflow headroom are proved separately).  The
mutable per-iteration state of the backtracking solver (column masks, box
masks, solution grid, accumulator of solutions) is threaded explicitly
through a state record, with the code's snapshot-restore of the masks
modelled by explicitly writing the saved masks back into the state returned
by the recursive call, exactly as the source does.
-/

set_option synthInstance.maxSize 512
set_option synthInstance.maxHeartbeats 1000000

namespace SudokuSpeed

/-- A digit string: the list of digit values of the characters of a C++
string (character `c` is modelled as the value `c - '0'`). -/
abbrev DigitStr := List Nat

/-- Embedding of `containsRequiredDigits` (SudokuSpeed.cpp lines 30-43): it
folds a bit mask of the digits occurring in the string and then checks that
the bit of every required digit is set, returning false as soon as one is
missing. -/
def containsRequiredDigits (number : DigitStr) (requiredDigits : List Nat) : Bool :=
  let digitMask := number.foldl (fun m c => m ||| (1 <<< c)) 0
  requiredDigits.all fun d => digitMask &&& (1 <<< d) != 0

/-- Embedding of `filterDivisibleByCandidate` (lines 46-67): keeps exactly
the strings whose remainder, computed by the digit-by-digit modular
accumulation `remainder = (remainder * 10 + digit) % candidateGCD`, ends at
zero. -/
def filterDivisibleByCandidate (options : List DigitStr) (candidateGCD : Nat) :
    List DigitStr :=
  options.filter fun opt =>
    (opt.foldl (fun remainder c => (remainder * 10 + c) % candidateGCD) 0) == 0

/-- The base-10 integer value of a digit string.  The C++ code never
materialises this number (it only accumulates remainders); this definition
is the specification-side reading of a string as an integer, used to state
divisibility correctness. -/
def strValue (s : DigitStr) : Nat := s.foldl (fun acc c => acc * 10 + c) 0

/-- Embedding of `filterByColumn` (lines 70-79): keeps the strings whose
character at index `column` equals `value`.  All call sites use an in-range
column, modelled by `getD` with default 0. -/
def filterByColumn (numbers : List DigitStr) (column : Nat) (value : Nat) :
    List DigitStr :=
  numbers.filter fun number => number.getD column 0 == value

/-- Embedding of `filterDisallowedValues` (lines 82-98): discards the
strings whose character at index `column` belongs to `disallowedValues`
(the C++ `unordered_set` is only a lookup structure for the same
membership test). -/
def filterDisallowedValues (numbers : List DigitStr) (column : Nat)
    (disallowedValues : List Nat) : List DigitStr :=
  numbers.filter fun number => !(disallowedValues.contains (number.getD column 0))

/-- The required-digit set of the program (line 106): characters
`'0','2','5'`. -/
def requiredDigits : List Nat := [0, 2, 5]

/-- The ten-symbol digit alphabet `'0'..'9'`. -/
def alphabet : List Nat := List.range 10

/-- The 9-symbol sub-alphabet used for one generation shard (lines
129-138): all alphabet digits except `skipDigit`, in ascending order (the
code builds it ascending and then sorts, a no-op). -/
def digitsFor (skipDigit : Nat) : List Nat := alphabet.filter fun d => d != skipDigit

/-- One generation shard (lines 141-161): every permutation of the
sub-alphabet excluding `skipDigit`, kept when it contains the required
digits.  `List.permutations` enumerates exactly the strings the
`next_permutation` do-while loop visits (each distinct permutation once,
starting from the sorted string). -/
def genFor (skipDigit : Nat) : List DigitStr :=
  (digitsFor skipDigit).permutations.filter fun p =>
    containsRequiredDigits p requiredDigits

/-- The merged candidate pool (lines 104-184): shards for every
non-required skip digit, concatenated.  The C++ merge order depends on
thread completion; it is modelled here in ascending skip-digit order, which
is immaterial to the counting and membership claims. -/
def validNumbers : List DigitStr :=
  (alphabet.filter fun s => !(requiredDigits.contains s)).flatMap genFor

/-- The last-decimal-digit test of the divisor enumeration (lines
305-306). -/
def lastDigitOk (n : Nat) : Bool :=
  let lastDigit := n % 10
  lastDigit == 1 || lastDigit == 3 || lastDigit == 7 || lastDigit == 9

/-- The descending divisor enumeration (lines 303-309): the loop runs
`candidateGCD` from `n` down to 337 and pushes the values whose last digit
is 1, 3, 7 or 9.  Defined by recursion on `n` via `Nat.rec` (the bound
`337 ≤ _` reproduces the loop's stopping condition). -/
def gcdListFrom : Nat → List Nat :=
  Nat.rec [] fun n ih =>
    (if 337 ≤ n + 1 ∧ lastDigitOk (n + 1) then [n + 1] else []) ++ ih

/-- The `candidateGCDs` vector of the program: divisors from 12345678 down
to 337 whose last digit is coprime to 10. -/
def candidateGCDs : List Nat := gcdListFrom 12345678

theorem gcdListFrom_zero : gcdListFrom 0 = [] := rfl

theorem gcdListFrom_succ (n : Nat) :
    gcdListFrom (n + 1) =
      (if 337 ≤ n + 1 ∧ lastDigitOk (n + 1) then [n + 1] else []) ++ gcdListFrom n := rfl

theorem mem_gcdListFrom {x : Nat} : ∀ {n : Nat},
    x ∈ gcdListFrom n ↔ 337 ≤ x ∧ x ≤ n ∧ lastDigitOk x = true := by
  intro n
  induction n with
  | zero => simp [gcdListFrom_zero]; omega
  | succ n ih =>
      rw [gcdListFrom_succ]
      by_cases h : 337 ≤ n + 1 ∧ lastDigitOk (n + 1)
      · simp only [if_pos h, List.cons_append, List.nil_append, List.mem_cons, ih]
        constructor
        · rintro (rfl | ⟨h1, h2, h3⟩)
          · exact ⟨h.1, Nat.le_refl _, h.2⟩
          · exact ⟨h1, Nat.le_succ_of_le h2, h3⟩
        · rintro ⟨h1, h2, h3⟩
          rcases Nat.lt_or_ge x (n + 1) with hlt | hge
          · exact Or.inr ⟨h1, Nat.lt_succ_iff.mp hlt, h3⟩
          · exact Or.inl (Nat.le_antisymm h2 hge)
      · simp only [if_neg h, List.nil_append, ih]
        constructor
        · rintro ⟨h1, h2, h3⟩
          exact ⟨h1, Nat.le_succ_of_le h2, h3⟩
        · rintro ⟨h1, h2, h3⟩
          rcases Nat.lt_or_ge x (n + 1) with hlt | hge
          · exact ⟨h1, Nat.lt_succ_iff.mp hlt, h3⟩
          · have : x = n + 1 := Nat.le_antisymm h2 hge
            subst this
            exact absurd ⟨h1, h3⟩ h

theorem gcdListFrom_le {x n : Nat} (h : x ∈ gcdListFrom n) : x ≤ n :=
  (mem_gcdListFrom.mp h).2.1

/-- The divisor enumeration is strictly decreasing. -/
theorem gcdListFrom_pairwise : ∀ n : Nat,
    (gcdListFrom n).Pairwise (fun a b => b < a) := by
  intro n
  induction n with
  | zero => rw [gcdListFrom_zero]; exact List.Pairwise.nil
  | succ n ih =>
      rw [gcdListFrom_succ]
      by_cases h : 337 ≤ n + 1 ∧ lastDigitOk (n + 1)
      · simp only [if_pos h, List.cons_append, List.nil_append]
        exact List.pairwise_cons.mpr
          ⟨fun y hy => Nat.lt_succ_of_le (gcdListFrom_le hy), ih⟩
      · simpa only [if_neg h, List.nil_append] using ih

theorem candidateGCDs_pairwise : candidateGCDs.Pairwise (fun a b => b < a) :=
  gcdListFrom_pairwise 12345678

theorem mem_candidateGCDs {x : Nat} :
    x ∈ candidateGCDs ↔ 337 ≤ x ∧ x ≤ 12345678 ∧ lastDigitOk x = true :=
  mem_gcdListFrom

/-- On a strictly decreasing list, `find?` returns its first hit, so every
larger member of the list fails the predicate. -/
theorem find?_pairwise_max {l : List Nat} {p : Nat → Bool} {d : Nat}
    (hp : l.Pairwise (fun a b => b < a)) (hd : l.find? p = some d) :
    ∀ x ∈ l, d < x → p x = false := by
  induction l with
  | nil => simp at hd
  | cons a l ih =>
      rcases List.pairwise_cons.mp hp with ⟨ha, hl⟩
      by_cases hpa : p a
      · have : d = a := by
          rw [List.find?_cons_of_pos _ hpa] at hd
          exact (Option.some_inj.mp hd).symm
        subst this
        intro x hx hdx
        rcases List.mem_cons.mp hx with rfl | hx'
        · exact absurd hdx (Nat.lt_irrefl x)
        · exact absurd (ha x hx') (Nat.lt_asymm hdx)
      · rw [List.find?_cons_of_neg _ hpa] at hd
        intro x hx hdx
        rcases List.mem_cons.mp hx with rfl | hx'
        · exact Bool.not_eq_true _ ▸ (by simpa using hpa)
        · exact ih hl hd x hx' hdx

/-- A solution grid: the `9×9` vector `solution` of the program, modelled
as a total function on row and column indices (entries outside `0..8` stay
at their initial value 0). -/
abbrev Grid := Nat → Nat → Nat

/-- The search state mutated by `solveFixed` (lines 341-345): the nine
column masks, the nine 3×3-box masks, the partially filled solution grid,
and the accumulator of complete solutions. -/
structure SState where
  colMask : Nat → Nat
  boxMask : Nat → Nat
  grid : Grid
  sols : List Grid

/-- Embedding of the `getBoxIndex` lambda (lines 383-385). -/
def boxIndex (r c : Nat) : Nat := (r / 3) * 3 + (c / 3)

/-- Embedding of the `hasZeroInFirstColumns` lambda (lines 370-380): true
when some cell of the first three columns holds the symbol 0 (outer loop
over columns, inner loop over rows). -/
def hasZeroInFirstColumns (g : Grid) : Bool :=
  (List.range 3).any fun c => (List.range 9).any fun r => g r c == 0

/-- The conflict test of one candidate row (lines 412-442): the candidate's
digit at column `c` must not already be present in column `c`'s mask nor in
the mask of the box containing `(r, c)`, for every `c` in `0..8`.  The
source unrolls the first two columns of this loop as an optimisation with
identical semantics; `List.any` short-circuits on the first conflicting
column exactly as the source does. -/
def conflict (st : SState) (r : Nat) (cand : DigitStr) : Bool :=
  (List.range 9).any fun c =>
    let d := cand.getD c 0
    let b := boxIndex r c
    (st.colMask c &&& (1 <<< d) != 0) || (st.boxMask b &&& (1 <<< d) != 0)

/-- One iteration of the commit loop body (lines 451-456): OR the digit
into the column mask and the box mask, and write it into the grid. -/
def commitCell (r c d : Nat) (st : SState) : SState :=
  { st with
    colMask := fun c' => if c' = c then st.colMask c ||| (1 <<< d) else st.colMask c'
    boxMask := fun b' =>
      if b' = boxIndex r c then st.boxMask (boxIndex r c) ||| (1 <<< d) else st.boxMask b'
    grid := fun r' c' => if r' = r ∧ c' = c then d else st.grid r' c' }

/-- The commit loop over a list of column indices. -/
def commitLoop (r : Nat) (cand : DigitStr) : List Nat → SState → SState
  | [], st => st
  | c :: cs, st => commitLoop r cand cs (commitCell r c (cand.getD c 0) st)

/-- Committing a candidate row (lines 450-456): the loop body runs for
columns `c = 0..8`. -/
def commit (r : Nat) (cand : DigitStr) (st : SState) : SState :=
  commitLoop r cand (List.range 9) st

/-- The fixed row visitation order (line 339). -/
def rowOrder : List Nat := [1, 8, 5, 3, 6, 7, 2, 0, 4]

/-- Embedding of the recursive backtracking lambda `solveFixed` (lines
396-464), with the remaining suffix of the visitation order as the
recursion argument (position `pos` of the source corresponds to the suffix
`rowOrder.drop pos`).  At the end of the order the tie-break predicate is
applied and the solution appended; otherwise each candidate of the current
row is tried in list order: a conflicting candidate is skipped, a
compatible one is committed, the recursion explores deeper, and afterwards
the masks saved before the commit are written back (the grid and the
accumulator keep whatever the recursive call left in them, as in the
source). -/
def solveFixed (candidates : Nat → List DigitStr) : List Nat → SState → SState
  | [], st =>
      if hasZeroInFirstColumns st.grid then
        { st with sols := st.sols ++ [st.grid] }
      else st
  | r :: rows, st =>
      (candidates r).foldl
        (fun acc cand =>
          if conflict acc r cand then acc
          else
            let st1 := solveFixed candidates rows (commit r cand acc)
            { st1 with colMask := acc.colMask, boxMask := acc.boxMask })
        st

/-- The initial search state (lines 342-345): all masks empty, grid all
zero, no solutions. -/
def initState : SState :=
  { colMask := fun _ => 0, boxMask := fun _ => 0, grid := fun _ _ => 0, sols := [] }

/-- The per-divisor row filtering loop (lines 313-324): each row of the
base puzzle is re-filtered by divisibility; if some row comes out empty the
iteration is aborted (`validCandidate = false`) and `none` is returned,
meaning the solver is not invoked for this divisor. -/
def filterRowsLoop (d : Nat) : List (List DigitStr) → Option (List (List DigitStr))
  | [] => some []
  | row :: rest =>
      let f := filterDivisibleByCandidate row d
      if f.isEmpty then none
      else
        match filterRowsLoop d rest with
        | none => none
        | some rs => some (f :: rs)

/-- One iteration of the divisor loop (lines 313-508) for divisor `d`:
filter the base puzzle; if every row stays non-empty, run the backtracking
solver from the fresh initial state and return its accumulated solutions,
otherwise return `none` (solver not invoked). -/
def runDivisor (basePuzzle : List (List DigitStr)) (d : Nat) : Option (List Grid) :=
  match filterRowsLoop d basePuzzle with
  | none => none
  | some candidatePuzzle =>
      some (solveFixed (fun r => candidatePuzzle.getD r []) rowOrder initState).sols

/-- How many times the divisor iteration for `d` invokes the backtracking
solver: zero when a row filtered empty, one otherwise. -/
def solverInvocations (basePuzzle : List (List DigitStr)) (d : Nat) : Nat :=
  match filterRowsLoop d basePuzzle with
  | none => 0
  | some _ => 1

/-- The solution set the divisor iteration for `d` ends with (empty when
the solver was never invoked). -/
def solutionsFor (basePuzzle : List (List DigitStr)) (d : Nat) : List Grid :=
  match runDivisor basePuzzle d with
  | none => []
  | some sols => sols

/-- The outer divisor search loop (lines 313-508): try the enumerated
divisors in order and stop at the first one whose iteration ends with a
non-empty solution accumulator (`break` at line 501). -/
def answerDivisor (basePuzzle : List (List DigitStr)) : Option Nat :=
  candidateGCDs.find? fun d => !(solutionsFor basePuzzle d).isEmpty


/-- The mask membership test of the source, `mask & (1 << d)` compared
against zero, is the `testBit` predicate. -/
theorem and_shift_ne (m d : Nat) : (m &&& (1 <<< d) != 0) = m.testBit d := by
  rw [Nat.one_shiftLeft, Nat.and_two_pow]
  cases h : m.testBit d
  · simp
  · have hp : 0 < 2 ^ d := Nat.pos_pow_of_pos d (by norm_num)
    simp [Nat.ne_of_gt hp]

theorem testBit_shift_self (d : Nat) : (1 <<< d).testBit d = true := by
  rw [Nat.one_shiftLeft]; exact Nat.testBit_two_pow_self

theorem testBit_shift_ne {d i : Nat} (h : d ≠ i) : (1 <<< d).testBit i = false := by
  rw [Nat.one_shiftLeft]; exact Nat.testBit_two_pow_of_ne h

theorem commitCell_colMask (r c d c' : Nat) (st : SState) :
    (commitCell r c d st).colMask c' =
      if c' = c then st.colMask c ||| (1 <<< d) else st.colMask c' := rfl

theorem commitCell_boxMask (r c d b : Nat) (st : SState) :
    (commitCell r c d st).boxMask b =
      if b = boxIndex r c then st.boxMask (boxIndex r c) ||| (1 <<< d)
      else st.boxMask b := rfl

theorem commitCell_grid (r c d r' c' : Nat) (st : SState) :
    (commitCell r c d st).grid r' c' =
      if r' = r ∧ c' = c then d else st.grid r' c' := rfl

theorem commitCell_sols (r c d : Nat) (st : SState) :
    (commitCell r c d st).sols = st.sols := rfl

theorem testBit_or_shift (m d i : Nat) :
    (m ||| (1 <<< d)).testBit i = true ↔ m.testBit i = true ∨ d = i := by
  rw [Nat.testBit_or]
  by_cases h : d = i
  · subst h; simp [testBit_shift_self]
  · simp [testBit_shift_ne h, h]

theorem commitLoop_sols (r : Nat) (cand : DigitStr) :
    ∀ (cs : List Nat) (st : SState), (commitLoop r cand cs st).sols = st.sols := by
  intro cs
  induction cs with
  | nil => intro st; rfl
  | cons c cs ih => intro st; rw [commitLoop, ih, commitCell_sols]

theorem commitLoop_colMask (r : Nat) (cand : DigitStr) :
    ∀ (cs : List Nat) (st : SState) (c' dd : Nat),
      ((commitLoop r cand cs st).colMask c').testBit dd = true ↔
        (st.colMask c').testBit dd = true ∨ (c' ∈ cs ∧ cand.getD c' 0 = dd) := by
  intro cs
  induction cs with
  | nil => intro st c' dd; simp [commitLoop]
  | cons c cs ih =>
      intro st c' dd
      rw [commitLoop, ih, commitCell_colMask]
      by_cases hcc : c' = c
      · subst hcc
        rw [if_pos rfl, testBit_or_shift]
        constructor
        · rintro ((h | h) | ⟨h1, h2⟩)
          · exact Or.inl h
          · exact Or.inr ⟨List.mem_cons_self c' cs, h⟩
          · exact Or.inr ⟨List.mem_cons.mpr (Or.inr h1), h2⟩
        · rintro (h | ⟨_, h2⟩)
          · exact Or.inl (Or.inl h)
          · exact Or.inl (Or.inr h2)
      · rw [if_neg hcc]
        constructor
        · rintro (h | ⟨h1, h2⟩)
          · exact Or.inl h
          · exact Or.inr ⟨List.mem_cons.mpr (Or.inr h1), h2⟩
        · rintro (h | ⟨h1, h2⟩)
          · exact Or.inl h
          · rcases List.mem_cons.mp h1 with h1 | h1
            · exact absurd h1 hcc
            · exact Or.inr ⟨h1, h2⟩

theorem commitLoop_boxMask (r : Nat) (cand : DigitStr) :
    ∀ (cs : List Nat) (st : SState) (b dd : Nat),
      ((commitLoop r cand cs st).boxMask b).testBit dd = true ↔
        (st.boxMask b).testBit dd = true ∨
          (∃ c ∈ cs, boxIndex r c = b ∧ cand.getD c 0 = dd) := by
  intro cs
  induction cs with
  | nil => intro st b dd; simp [commitLoop]
  | cons c cs ih =>
      intro st b dd
      rw [commitLoop, ih, commitCell_boxMask]
      by_cases hb : b = boxIndex r c
      · subst hb
        rw [if_pos rfl, testBit_or_shift]
        constructor
        · rintro ((h | h) | ⟨c0, hc0, hbox, hd⟩)
          · exact Or.inl h
          · exact Or.inr ⟨c, List.mem_cons_self c cs, rfl, h⟩
          · exact Or.inr ⟨c0, List.mem_cons.mpr (Or.inr hc0), hbox, hd⟩
        · rintro (h | ⟨c0, hc0, hbox, hd⟩)
          · exact Or.inl (Or.inl h)
          · rcases List.mem_cons.mp hc0 with rfl | hc0
            · rw [hbox]; exact Or.inl (Or.inr hd)
            · exact Or.inr ⟨c0, hc0, hbox, hd⟩
      · rw [if_neg hb]
        constructor
        · rintro (h | ⟨c0, hc0, hbox, hd⟩)
          · exact Or.inl h
          · exact Or.inr ⟨c0, List.mem_cons.mpr (Or.inr hc0), hbox, hd⟩
        · rintro (h | ⟨c0, hc0, hbox, hd⟩)
          · exact Or.inl h
          · rcases List.mem_cons.mp hc0 with rfl | hc0
            · exact absurd hbox.symm hb
            · exact Or.inr ⟨c0, hc0, hbox, hd⟩

theorem commitLoop_grid (r : Nat) (cand : DigitStr) :
    ∀ (cs : List Nat) (st : SState) (r' c' : Nat),
      (commitLoop r cand cs st).grid r' c' =
        if r' = r ∧ c' ∈ cs then cand.getD c' 0 else st.grid r' c' := by
  intro cs
  induction cs with
  | nil => intro st r' c'; simp [commitLoop]
  | cons c cs ih =>
      intro st r' c'
      rw [commitLoop, ih, commitCell_grid]
      by_cases h1 : r' = r ∧ c' ∈ cs
      · rw [if_pos h1, if_pos ⟨h1.1, List.mem_cons.mpr (Or.inr h1.2)⟩]
      · rw [if_neg h1]
        by_cases h2 : r' = r ∧ c' = c
        · rw [if_pos h2, if_pos ⟨h2.1, h2.2 ▸ List.mem_cons_self c' cs⟩, h2.2]
        · rw [if_neg h2, if_neg]
          intro hcon
          rcases List.mem_cons.mp hcon.2 with h3 | h3
          · exact h2 ⟨hcon.1, h3⟩
          · exact h1 ⟨hcon.1, h3⟩

theorem commit_sols (r : Nat) (cand : DigitStr) (st : SState) :
    (commit r cand st).sols = st.sols := commitLoop_sols r cand _ st

theorem commit_colMask (r : Nat) (cand : DigitStr) (st : SState) (c' dd : Nat) :
    ((commit r cand st).colMask c').testBit dd = true ↔
      (st.colMask c').testBit dd = true ∨ (c' < 9 ∧ cand.getD c' 0 = dd) := by
  rw [commit, commitLoop_colMask]
  simp [List.mem_range]

theorem commit_boxMask (r : Nat) (cand : DigitStr) (st : SState) (b dd : Nat) :
    ((commit r cand st).boxMask b).testBit dd = true ↔
      (st.boxMask b).testBit dd = true ∨
        (∃ c < 9, boxIndex r c = b ∧ cand.getD c 0 = dd) := by
  rw [commit, commitLoop_boxMask]
  constructor
  · rintro (h | ⟨c, hc, hb, hd⟩)
    · exact Or.inl h
    · exact Or.inr ⟨c, List.mem_range.mp hc, hb, hd⟩
  · rintro (h | ⟨c, hc, hb, hd⟩)
    · exact Or.inl h
    · exact Or.inr ⟨c, List.mem_range.mpr hc, hb, hd⟩

theorem commit_grid (r : Nat) (cand : DigitStr) (st : SState) (r' c' : Nat) :
    (commit r cand st).grid r' c' =
      if r' = r ∧ c' < 9 then cand.getD c' 0 else st.grid r' c' := by
  rw [commit, commitLoop_grid]
  simp [List.mem_range]

/-- Specification-side enumeration of what the backtracking search under a
suffix of the visitation order produces: the list of completed grids, one
per successful branch of the candidate tree, in branch order.  This is the
pure (accumulator-free) reading of `solveFixed`. -/
def completions (candidates : Nat → List DigitStr) : List Nat → SState → List Grid
  | [], st => if hasZeroInFirstColumns st.grid then [st.grid] else []
  | r :: rows, st =>
      (candidates r).flatMap fun cand =>
        if conflict st r cand then []
        else completions candidates rows (commit r cand st)

/-- A candidate row is compatible with the current masks: none of its nine
digits is already present in the corresponding column mask or box mask. -/
def Ok (st : SState) (r : Nat) (cand : DigitStr) : Prop :=
  ∀ c < 9, (st.colMask c).testBit (cand.getD c 0) = false ∧
    (st.boxMask (boxIndex r c)).testBit (cand.getD c 0) = false

/-- Two placed rows do not clash: digits in the same column, or in cells of
the same 3×3 box, are distinct. -/
def NoClash (r : Nat) (x : DigitStr) (r' : Nat) (y : DigitStr) : Prop :=
  ∀ c < 9, ∀ c' < 9, (c = c' ∨ boxIndex r c = boxIndex r' c') →
    x.getD c 0 ≠ y.getD c' 0

theorem NoClash_symm {r : Nat} {x : DigitStr} {r' : Nat} {y : DigitStr}
    (h : NoClash r x r' y) : NoClash r' y r x := by
  intro c hc c' hc' hor he
  rcases hor with h1 | h1
  · exact h c' hc' c hc (Or.inl h1.symm) he.symm
  · exact h c' hc' c hc (Or.inr h1.symm) he.symm

/-- The grid obtained from `g` by overwriting the rows listed in `rows`
with the chosen candidate strings. -/
def overwriteGrid (g : Grid) (rows : List Nat) (choice : Nat → DigitStr) : Grid :=
  fun i c => if i ∈ rows ∧ c < 9 then (choice i).getD c 0 else g i c

/-- The conflict test fails exactly when the candidate is compatible with
every column and box mask. -/
theorem conflict_eq_false_iff (st : SState) (r : Nat) (cand : DigitStr) :
    conflict st r cand = false ↔ Ok st r cand := by
  rw [conflict, List.any_eq_false]
  constructor
  · intro h c hc
    have h2 := h c (List.mem_range.mpr hc)
    simp only [Bool.or_eq_true, not_or, Bool.not_eq_true, and_shift_ne] at h2
    exact ⟨h2.1, h2.2⟩
  · intro h c hc
    have h2 := h c (List.mem_range.mp hc)
    simp only [Bool.or_eq_true, not_or, Bool.not_eq_true, and_shift_ne]
    exact ⟨h2.1, h2.2⟩

/-- Compatibility after a commit decomposes into compatibility before the
commit plus absence of clashes with the committed row. -/
theorem Ok_commit_iff (r : Nat) (cand : DigitStr) (st : SState) (i : Nat) (y : DigitStr) :
    Ok (commit r cand st) i y ↔ Ok st i y ∧ NoClash r cand i y := by
  constructor
  · intro h
    constructor
    · intro c hc
      have hcm := h c hc
      constructor
      · by_contra hb
        have : ((commit r cand st).colMask c).testBit (y.getD c 0) = true :=
          (commit_colMask r cand st c _).mpr (Or.inl (by
            cases hcol : (st.colMask c).testBit (y.getD c 0)
            · exact absurd hcol hb
            · rfl))
        rw [hcm.1] at this; exact Bool.false_ne_true this
      · by_contra hb
        have : ((commit r cand st).boxMask (boxIndex i c)).testBit (y.getD c 0) = true :=
          (commit_boxMask r cand st _ _).mpr (Or.inl (by
            cases hbox : (st.boxMask (boxIndex i c)).testBit (y.getD c 0)
            · exact absurd hbox hb
            · rfl))
        rw [hcm.2] at this; exact Bool.false_ne_true this
    · intro c hc c' hc' hor he
      rcases hor with rfl | hbox
      · have hcm := h c hc
        have : ((commit r cand st).colMask c).testBit (y.getD c 0) = true :=
          (commit_colMask r cand st c _).mpr (Or.inr ⟨hc, he⟩)
        rw [hcm.1] at this; exact Bool.false_ne_true this
      · have hcm := h c' hc'
        have : ((commit r cand st).boxMask (boxIndex i c')).testBit (y.getD c' 0) = true :=
          (commit_boxMask r cand st _ _).mpr (Or.inr ⟨c, hc, hbox, he⟩)
        rw [hcm.2] at this; exact Bool.false_ne_true this
  · rintro ⟨hok, hnc⟩ c hc
    constructor
    · cases hcol : ((commit r cand st).colMask c).testBit (y.getD c 0)
      · rfl
      · rcases (commit_colMask r cand st c _).mp hcol with h1 | ⟨_, h2⟩
        · rw [(hok c hc).1] at h1; exact (Bool.false_ne_true h1).elim
        · exact absurd h2 (hnc c hc c hc (Or.inl rfl))
    · cases hbox : ((commit r cand st).boxMask (boxIndex i c)).testBit (y.getD c 0)
      · rfl
      · rcases (commit_boxMask r cand st _ _).mp hbox with h1 | ⟨c0, hc0, hbeq, h2⟩
        · rw [(hok c hc).2] at h1; exact (Bool.false_ne_true h1).elim
        · exact absurd h2 (hnc c0 hc0 c hc (Or.inr hbeq))

/-- One iteration of the candidate loop of `solveFixed` (lines 409-463):
skip on conflict, otherwise commit, recurse, and restore the saved
masks. -/
def tryStep (candidates : Nat → List DigitStr) (rows : List Nat) (r : Nat)
    (acc : SState) (cand : DigitStr) : SState :=
  if conflict acc r cand then acc
  else
    let st1 := solveFixed candidates rows (commit r cand acc)
    { st1 with colMask := acc.colMask, boxMask := acc.boxMask }

theorem solveFixed_nil (candidates : Nat → List DigitStr) (st : SState) :
    solveFixed candidates [] st =
      if hasZeroInFirstColumns st.grid then { st with sols := st.sols ++ [st.grid] }
      else st := rfl

theorem solveFixed_cons (candidates : Nat → List DigitStr) (r : Nat) (rows : List Nat)
    (st : SState) :
    solveFixed candidates (r :: rows) st =
      (candidates r).foldl (tryStep candidates rows r) st := rfl

theorem tryStep_colMask (candidates : Nat → List DigitStr) (rows : List Nat) (r : Nat)
    (acc : SState) (cand : DigitStr) :
    (tryStep candidates rows r acc cand).colMask = acc.colMask := by
  unfold tryStep; split <;> rfl

theorem tryStep_boxMask (candidates : Nat → List DigitStr) (rows : List Nat) (r : Nat)
    (acc : SState) (cand : DigitStr) :
    (tryStep candidates rows r acc cand).boxMask = acc.boxMask := by
  unfold tryStep; split <;> rfl

theorem foldl_tryStep_colMask (candidates : Nat → List DigitStr) (rows : List Nat)
    (r : Nat) : ∀ (cs : List DigitStr) (acc : SState),
    (cs.foldl (tryStep candidates rows r) acc).colMask = acc.colMask := by
  intro cs
  induction cs with
  | nil => intro acc; rfl
  | cons cand cs ih =>
      intro acc
      rw [List.foldl_cons, ih, tryStep_colMask]

theorem foldl_tryStep_boxMask (candidates : Nat → List DigitStr) (rows : List Nat)
    (r : Nat) : ∀ (cs : List DigitStr) (acc : SState),
    (cs.foldl (tryStep candidates rows r) acc).boxMask = acc.boxMask := by
  intro cs
  induction cs with
  | nil => intro acc; rfl
  | cons cand cs ih =>
      intro acc
      rw [List.foldl_cons, ih, tryStep_boxMask]

theorem solveFixed_colMask (candidates : Nat → List DigitStr) :
    ∀ (rows : List Nat) (st : SState),
      (solveFixed candidates rows st).colMask = st.colMask := by
  intro rows st
  cases rows with
  | nil => rw [solveFixed_nil]; split <;> rfl
  | cons r rows => rw [solveFixed_cons, foldl_tryStep_colMask]

theorem solveFixed_boxMask (candidates : Nat → List DigitStr) :
    ∀ (rows : List Nat) (st : SState),
      (solveFixed candidates rows st).boxMask = st.boxMask := by
  intro rows st
  cases rows with
  | nil => rw [solveFixed_nil]; split <;> rfl
  | cons r rows => rw [solveFixed_cons, foldl_tryStep_boxMask]

/-- The solver only writes grid cells of the rows it is asked to place (and
only at column indices below 9). -/
theorem solveFixed_grid_keep (candidates : Nat → List DigitStr) :
    ∀ (rows : List Nat) (st : SState) (i cc : Nat),
      (i ∉ rows ∨ 9 ≤ cc) → (solveFixed candidates rows st).grid i cc = st.grid i cc := by
  intro rows
  induction rows with
  | nil =>
      intro st i cc _
      rw [solveFixed_nil]; split <;> rfl
  | cons r rows ih =>
      intro st i cc hkeep
      rw [solveFixed_cons]
      have hkeep' : i ∉ rows ∨ 9 ≤ cc := by
        rcases hkeep with h | h
        · exact Or.inl fun hm => h (List.mem_cons.mpr (Or.inr hm))
        · exact Or.inr h
      have hir : i ≠ r ∨ 9 ≤ cc := by
        rcases hkeep with h | h
        · exact Or.inl fun he => h (he ▸ List.mem_cons_self i rows)
        · exact Or.inr h
      have aux : ∀ (cs : List DigitStr) (acc : SState),
          (cs.foldl (tryStep candidates rows r) acc).grid i cc = acc.grid i cc := by
        intro cs
        induction cs with
        | nil => intro acc; rfl
        | cons cand cs ihcs =>
            intro acc
            rw [List.foldl_cons, ihcs]
            unfold tryStep
            split
            · rfl
            · show (solveFixed candidates rows (commit r cand acc)).grid i cc = acc.grid i cc
              rw [ih _ i cc hkeep', commit_grid]
              rw [if_neg]
              rintro ⟨hr, hc9⟩
              rcases hir with h | h
              · exact h hr
              · omega
      exact aux _ st

/-- The conflict test only reads the masks. -/
theorem conflict_congr {st st' : SState} (r : Nat) (cand : DigitStr)
    (hcol : st.colMask = st'.colMask) (hbox : st.boxMask = st'.boxMask) :
    conflict st r cand = conflict st' r cand := by
  unfold conflict
  rw [hcol, hbox]

/-- The commit loop's masks depend only on the incoming masks. -/
theorem commitLoop_masks_congr (r : Nat) (cand : DigitStr) :
    ∀ (cs : List Nat) (st st' : SState),
      st.colMask = st'.colMask → st.boxMask = st'.boxMask →
      (commitLoop r cand cs st).colMask = (commitLoop r cand cs st').colMask ∧
        (commitLoop r cand cs st).boxMask = (commitLoop r cand cs st').boxMask := by
  intro cs
  induction cs with
  | nil => intro st st' h1 h2; exact ⟨h1, h2⟩
  | cons c cs ih =>
      intro st st' h1 h2
      rw [commitLoop, commitLoop]
      apply ih
      · funext c'
        rw [commitCell_colMask, commitCell_colMask, h1]
      · funext b
        rw [commitCell_boxMask, commitCell_boxMask, h2]

/-- What the pure search tree enumeration produces depends only on the
masks and on the grid cells of rows that are not overwritten anyway. -/
theorem completions_congr (candidates : Nat → List DigitStr) :
    ∀ (rows : List Nat) (st st' : SState),
      st.colMask = st'.colMask → st.boxMask = st'.boxMask →
      (∀ i cc, (i ∉ rows ∨ 9 ≤ cc) → st.grid i cc = st'.grid i cc) →
      completions candidates rows st = completions candidates rows st' := by
  intro rows
  induction rows with
  | nil =>
      intro st st' _ _ hg
      have hgrid : st.grid = st'.grid :=
        funext fun i => funext fun cc => hg i cc (Or.inl (List.not_mem_nil i))
      show (if hasZeroInFirstColumns st.grid then [st.grid] else []) =
        (if hasZeroInFirstColumns st'.grid then [st'.grid] else [])
      rw [hgrid]
  | cons r rows ih =>
      intro st st' h1 h2 hg
      show ((candidates r).flatMap fun cand =>
          if conflict st r cand then []
          else completions candidates rows (commit r cand st)) =
        ((candidates r).flatMap fun cand =>
          if conflict st' r cand then []
          else completions candidates rows (commit r cand st'))
      congr 1
      funext cand
      rw [conflict_congr r cand h1 h2]
      split
      · rfl
      · apply ih
        · exact (commitLoop_masks_congr r cand _ st st' h1 h2).1
        · exact (commitLoop_masks_congr r cand _ st st' h1 h2).2
        · intro i cc hkeep
          rw [commit_grid, commit_grid]
          by_cases hcase : i = r ∧ cc < 9
          · rw [if_pos hcase, if_pos hcase]
          · rw [if_neg hcase, if_neg hcase]
            apply hg
            rcases hkeep with h | h
            · rcases Nat.lt_or_ge cc 9 with hcc | hcc
              · refine Or.inl fun hm => ?_
                rcases List.mem_cons.mp hm with rfl | hm2
                · exact hcase ⟨rfl, hcc⟩
                · exact h hm2
              · exact Or.inr hcc
            · exact Or.inr h

/-- The solver is the imperative form of the pure enumeration: it appends
`completions` of the current state to the accumulator, with masks restored
at every level. -/
theorem solveFixed_sols (candidates : Nat → List DigitStr) :
    ∀ (rows : List Nat) (st : SState),
      (solveFixed candidates rows st).sols = st.sols ++ completions candidates rows st := by
  intro rows
  induction rows with
  | nil =>
      intro st
      rw [solveFixed_nil]
      show _ = st.sols ++ (if hasZeroInFirstColumns st.grid then [st.grid] else [])
      split
      · rfl
      · rw [List.append_nil]
  | cons r rows ih =>
      intro st
      rw [solveFixed_cons]
      have aux : ∀ (cs : List DigitStr) (acc : SState),
          acc.colMask = st.colMask → acc.boxMask = st.boxMask →
          (∀ i cc, ((i ∉ rows ∧ i ≠ r) ∨ 9 ≤ cc) → acc.grid i cc = st.grid i cc) →
          (cs.foldl (tryStep candidates rows r) acc).sols =
            acc.sols ++ cs.flatMap fun cand =>
              if conflict st r cand then []
              else completions candidates rows (commit r cand st) := by
        intro cs
        induction cs with
        | nil =>
            intro acc _ _ _
            rw [List.foldl_nil, List.flatMap_nil, List.append_nil]
        | cons cand cs ihcs =>
            intro acc h1 h2 h3
            rw [List.foldl_cons, List.flatMap_cons]
            have hconf : conflict acc r cand = conflict st r cand :=
              conflict_congr r cand h1 h2
            by_cases hc : conflict st r cand = true
            · have hstep : tryStep candidates rows r acc cand = acc := by
                unfold tryStep
                rw [hconf, if_pos hc]
              rw [hstep, ihcs acc h1 h2 h3, if_pos hc, List.nil_append]
            · have hcf : conflict st r cand = false := Bool.eq_false_iff.mpr hc
              have hstep : tryStep candidates rows r acc cand =
                  { solveFixed candidates rows (commit r cand acc) with
                    colMask := acc.colMask, boxMask := acc.boxMask } := by
                unfold tryStep
                rw [hconf, if_neg hc]
              have hcomm : completions candidates rows (commit r cand acc) =
                  completions candidates rows (commit r cand st) := by
                apply completions_congr
                · exact (commitLoop_masks_congr r cand _ _ _ h1 h2).1
                · exact (commitLoop_masks_congr r cand _ _ _ h1 h2).2
                · intro i cc hkeep
                  rw [commit_grid, commit_grid]
                  by_cases hcase : i = r ∧ cc < 9
                  · rw [if_pos hcase, if_pos hcase]
                  · rw [if_neg hcase, if_neg hcase]
                    apply h3
                    rcases hkeep with h | h
                    · rcases Nat.lt_or_ge cc 9 with hcc | hcc
                      · refine Or.inl ⟨h, fun he => hcase ⟨he, hcc⟩⟩
                      · exact Or.inr hcc
                    · exact Or.inr h
              have hsols' : (tryStep candidates rows r acc cand).sols =
                  acc.sols ++ completions candidates rows (commit r cand st) := by
                rw [hstep]
                show (solveFixed candidates rows (commit r cand acc)).sols = _
                rw [ih, commit_sols, hcomm]
              have hcol' : (tryStep candidates rows r acc cand).colMask = st.colMask := by
                rw [tryStep_colMask]; exact h1
              have hbox' : (tryStep candidates rows r acc cand).boxMask = st.boxMask := by
                rw [tryStep_boxMask]; exact h2
              have hgrid' : ∀ i cc, ((i ∉ rows ∧ i ≠ r) ∨ 9 ≤ cc) →
                  (tryStep candidates rows r acc cand).grid i cc = st.grid i cc := by
                intro i cc hkeep
                have hkeep2 : i ∉ rows ∨ 9 ≤ cc := by
                  rcases hkeep with h | h
                  · exact Or.inl h.1
                  · exact Or.inr h
                have hG : (tryStep candidates rows r acc cand).grid i cc =
                    (solveFixed candidates rows (commit r cand acc)).grid i cc := by
                  rw [hstep]
                rw [hG, solveFixed_grid_keep candidates rows _ i cc hkeep2, commit_grid]
                rw [if_neg]
                · exact h3 i cc hkeep
                · rintro ⟨hr, hcc⟩
                  rcases hkeep with h | h
                  · exact h.2 hr
                  · omega
              rw [ihcs _ hcol' hbox' hgrid', hsols', if_neg hc, List.append_assoc]
      have := aux (candidates r) st rfl rfl (fun _ _ _ => rfl)
      rw [this]
      rfl

theorem mem_completions_cons (candidates : Nat → List DigitStr) (r : Nat)
    (rows : List Nat) (st : SState) (g : Grid) :
    g ∈ completions candidates (r :: rows) st ↔
      ∃ cand, cand ∈ candidates r ∧ conflict st r cand = false ∧
        g ∈ completions candidates rows (commit r cand st) := by
  show g ∈ (candidates r).flatMap _ ↔ _
  rw [List.mem_flatMap]
  constructor
  · rintro ⟨cand, hc, hg⟩
    by_cases hcf : conflict st r cand = true
    · rw [if_pos hcf] at hg
      exact absurd hg (List.not_mem_nil g)
    · rw [if_neg hcf] at hg
      exact ⟨cand, hc, Bool.eq_false_iff.mpr hcf, hg⟩
  · rintro ⟨cand, hc, hcf, hg⟩
    refine ⟨cand, hc, ?_⟩
    rw [if_neg fun h => Bool.false_ne_true (hcf ▸ h)]
    exact hg

/-- Order-free characterisation of the search tree enumeration: a grid is
produced for a suffix of the visitation order exactly when it arises from
choosing, for each remaining row, a candidate from that row's list such
that every choice is compatible with the incoming masks, the choices do not
clash pairwise in columns or boxes, the grid is the incoming grid
overwritten by the choices, and the tie-break predicate holds. -/
theorem completions_char (candidates : Nat → List DigitStr) :
    ∀ (rows : List Nat), rows.Nodup → ∀ (st : SState) (g : Grid),
      (g ∈ completions candidates rows st ↔
        ∃ choice : Nat → DigitStr,
          (∀ r ∈ rows, choice r ∈ candidates r) ∧
          (∀ r ∈ rows, Ok st r (choice r)) ∧
          (∀ r ∈ rows, ∀ r' ∈ rows, r ≠ r' → NoClash r (choice r) r' (choice r')) ∧
          g = overwriteGrid st.grid rows choice ∧
          hasZeroInFirstColumns g = true) := by
  intro rows
  induction rows with
  | nil =>
      intro _ st g
      have hov : ∀ choice : Nat → DigitStr, overwriteGrid st.grid [] choice = st.grid := by
        intro choice
        funext i cc
        show (if i ∈ ([] : List Nat) ∧ cc < 9 then _ else st.grid i cc) = st.grid i cc
        rw [if_neg fun h => List.not_mem_nil i h.1]
      show g ∈ (if hasZeroInFirstColumns st.grid then [st.grid] else []) ↔ _
      constructor
      · intro hg
        by_cases hz : hasZeroInFirstColumns st.grid = true
        · rw [if_pos hz] at hg
          have hgeq : g = st.grid := List.mem_singleton.mp hg
          refine ⟨fun _ => [], ?_, ?_, ?_, ?_, ?_⟩
          · intro r hr; exact absurd hr (List.not_mem_nil r)
          · intro r hr; exact absurd hr (List.not_mem_nil r)
          · intro r hr; exact absurd hr (List.not_mem_nil r)
          · rw [hgeq, hov]
          · rw [hgeq]; exact hz
        · rw [if_neg hz] at hg
          exact absurd hg (List.not_mem_nil g)
      · rintro ⟨choice, _, _, _, hgeq, hz⟩
        rw [hov] at hgeq
        rw [if_pos (hgeq ▸ hz), hgeq]
        exact List.mem_singleton.mpr rfl
  | cons r rows ih =>
      intro hnd st g
      have hr : r ∉ rows := (List.nodup_cons.mp hnd).1
      have hnd' : rows.Nodup := (List.nodup_cons.mp hnd).2
      rw [mem_completions_cons]
      constructor
      · rintro ⟨cand, hmem, hcf, hgmem⟩
        rcases (ih hnd' (commit r cand st) g).mp hgmem with
          ⟨choice', hA1, hA2, hA3, hA4, hA5⟩
        refine ⟨fun i => if i = r then cand else choice' i, ?_, ?_, ?_, ?_, hA5⟩
        · intro i hi
          beta_reduce
          rcases List.mem_cons.mp hi with rfl | hi'
          · rw [if_pos rfl]; exact hmem
          · rw [if_neg (fun he : i = r => hr (he ▸ hi'))]; exact hA1 i hi'
        · intro i hi
          beta_reduce
          rcases List.mem_cons.mp hi with rfl | hi'
          · rw [if_pos rfl]
            exact (conflict_eq_false_iff st i cand).mp hcf
          · rw [if_neg (fun he : i = r => hr (he ▸ hi'))]
            exact ((Ok_commit_iff r cand st i (choice' i)).mp (hA2 i hi')).1
        · intro i hi j hj hij
          beta_reduce
          rcases List.mem_cons.mp hi with rfl | hi' <;>
            rcases List.mem_cons.mp hj with rfl | hj'
          · exact absurd rfl hij
          · rw [if_pos rfl, if_neg (fun he : j = i => hr (he ▸ hj'))]
            exact ((Ok_commit_iff i cand st j (choice' j)).mp (hA2 j hj')).2
          · rw [if_pos rfl, if_neg (fun he : i = j => hr (he ▸ hi'))]
            exact NoClash_symm ((Ok_commit_iff j cand st i (choice' i)).mp (hA2 i hi')).2
          · rw [if_neg (fun he : i = r => hr (he ▸ hi')),
              if_neg (fun he : j = r => hr (he ▸ hj'))]
            exact hA3 i hi' j hj' hij
        · rw [hA4]
          funext i cc
          show (if i ∈ rows ∧ cc < 9 then (choice' i).getD cc 0
            else (commit r cand st).grid i cc) = _
          by_cases h1 : i ∈ rows ∧ cc < 9
          · rw [if_pos h1]
            show _ = (if i ∈ r :: rows ∧ cc < 9 then
              (if i = r then cand else choice' i).getD cc 0 else st.grid i cc)
            rw [if_pos ⟨List.mem_cons.mpr (Or.inr h1.1), h1.2⟩,
              if_neg (fun he : i = r => hr (he ▸ h1.1))]
          · rw [if_neg h1, commit_grid]
            by_cases h2 : i = r ∧ cc < 9
            · rw [if_pos h2]
              show _ = (if i ∈ r :: rows ∧ cc < 9 then
                (if i = r then cand else choice' i).getD cc 0 else st.grid i cc)
              rw [if_pos ⟨List.mem_cons.mpr (Or.inl h2.1), h2.2⟩, if_pos h2.1]
            · rw [if_neg h2]
              show _ = (if i ∈ r :: rows ∧ cc < 9 then
                (if i = r then cand else choice' i).getD cc 0 else st.grid i cc)
              rw [if_neg]
              rintro ⟨hmem9, hcc9⟩
              rcases List.mem_cons.mp hmem9 with rfl | hm2
              · exact h2 ⟨rfl, hcc9⟩
              · exact h1 ⟨hm2, hcc9⟩
      · rintro ⟨choice, hB1, hB2, hB3, hB4, hB5⟩
        refine ⟨choice r, hB1 r (List.mem_cons_self r rows), ?_, ?_⟩
        · exact (conflict_eq_false_iff st r (choice r)).mpr
            (hB2 r (List.mem_cons_self r rows))
        · apply (ih hnd' (commit r (choice r) st) g).mpr
          refine ⟨choice, ?_, ?_, ?_, ?_, hB5⟩
          · intro i hi
            exact hB1 i (List.mem_cons.mpr (Or.inr hi))
          · intro i hi
            apply (Ok_commit_iff r (choice r) st i (choice i)).mpr
            refine ⟨hB2 i (List.mem_cons.mpr (Or.inr hi)), ?_⟩
            exact hB3 r (List.mem_cons_self r rows) i (List.mem_cons.mpr (Or.inr hi))
              (fun he : r = i => hr (he ▸ hi))
          · intro i hi j hj hij
            exact hB3 i (List.mem_cons.mpr (Or.inr hi)) j (List.mem_cons.mpr (Or.inr hj)) hij
          · rw [hB4]
            funext i cc
            show (if i ∈ r :: rows ∧ cc < 9 then (choice i).getD cc 0 else st.grid i cc) = _
            by_cases h1 : i ∈ rows ∧ cc < 9
            · show _ = (if i ∈ rows ∧ cc < 9 then (choice i).getD cc 0
                else (commit r (choice r) st).grid i cc)
              rw [if_pos h1, if_pos ⟨List.mem_cons.mpr (Or.inr h1.1), h1.2⟩]
            · show _ = (if i ∈ rows ∧ cc < 9 then (choice i).getD cc 0
                else (commit r (choice r) st).grid i cc)
              rw [if_neg h1, commit_grid]
              by_cases h2 : i = r ∧ cc < 9
              · rw [if_pos h2, if_pos ⟨List.mem_cons.mpr (Or.inl h2.1), h2.2⟩, h2.1]
              · rw [if_neg h2, if_neg]
                rintro ⟨hmem9, hcc9⟩
                rcases List.mem_cons.mp hmem9 with rfl | hm2
                · exact h2 ⟨rfl, hcc9⟩
                · exact h1 ⟨hm2, hcc9⟩

theorem mem_rowOrder {r : Nat} : r ∈ rowOrder ↔ r < 9 := by
  constructor
  · intro h
    simp only [rowOrder, List.mem_cons, List.not_mem_nil, or_false] at h
    rcases h with rfl | rfl | rfl | rfl | rfl | rfl | rfl | rfl | rfl <;> omega
  · intro h
    simp only [rowOrder, List.mem_cons, List.not_mem_nil, or_false]
    omega

theorem rowOrder_nodup : rowOrder.Nodup := by decide

/-- The grid assembled from one chosen candidate per row: entries of the
`9×9` block come from the choices, the rest keeps the initial value 0. -/
def buildGrid (choice : Nat → DigitStr) : Grid :=
  fun i c => if i < 9 ∧ c < 9 then (choice i).getD c 0 else 0

theorem overwrite_initState (choice : Nat → DigitStr) :
    overwriteGrid initState.grid rowOrder choice = buildGrid choice := by
  funext i cc
  show (if i ∈ rowOrder ∧ cc < 9 then (choice i).getD cc 0 else initState.grid i cc) = _
  unfold buildGrid
  by_cases h : i < 9 ∧ cc < 9
  · rw [if_pos ⟨mem_rowOrder.mpr h.1, h.2⟩, if_pos h]
  · rw [if_neg, if_neg h]
    · rfl
    · rintro ⟨hm, hcc⟩
      exact h ⟨mem_rowOrder.mp hm, hcc⟩

theorem Ok_initState (r : Nat) (cand : DigitStr) : Ok initState r cand := by
  intro c _
  exact ⟨Nat.zero_testBit _, Nat.zero_testBit _⟩

/-- Column validity of a grid: within each of the nine columns, entries of
distinct rows are distinct. -/
abbrev colsOK (g : Grid) : Prop :=
  ∀ c < 9, ∀ r < 9, ∀ r' < 9, r ≠ r' → g r c ≠ g r' c

/-- Box validity of a grid: within each 3×3 box, entries of distinct cells
are distinct. -/
abbrev boxesOK (g : Grid) : Prop :=
  ∀ r < 9, ∀ c < 9, ∀ r' < 9, ∀ c' < 9, (r ≠ r' ∨ c ≠ c') →
    boxIndex r c = boxIndex r' c' → g r c ≠ g r' c'

/-- Row validity of a grid: within each of the nine rows, entries of
distinct columns are distinct. -/
abbrev rowsOK (g : Grid) : Prop :=
  ∀ r < 9, ∀ c < 9, ∀ c' < 9, c ≠ c' → g r c ≠ g r c'

theorem nodup_getD_ne {l : DigitStr} (hlen : l.length = 9) (hnd : l.Nodup)
    {c c' : Nat} (hc : c < 9) (hc' : c' < 9) (hne : c ≠ c') :
    l.getD c 0 ≠ l.getD c' 0 := by
  have hc1 : c < l.length := by omega
  have hc2 : c' < l.length := by omega
  rw [List.getD_eq_getElem?_getD, List.getElem?_eq_getElem hc1,
    List.getD_eq_getElem?_getD, List.getElem?_eq_getElem hc2]
  intro he
  have := List.Nodup.getElem_inj_iff hnd |>.mp he
  exact hne this

/-- Master characterisation of the solution accumulator: starting from the
initial state, the backtracking solver accumulates exactly the grids built
from one candidate per row that are column-valid, box-valid and contain a
zero in the first three columns.  The hypothesis says every candidate
string has 9 pairwise-distinct digits, which holds for all lists the
program ever passes (they descend from permutations). -/
theorem sols_mem_iff (candidates : Nat → List DigitStr)
    (hc : ∀ r < 9, ∀ cand ∈ candidates r, cand.length = 9 ∧ cand.Nodup) (g : Grid) :
    g ∈ (solveFixed candidates rowOrder initState).sols ↔
      ∃ choice : Nat → DigitStr,
        (∀ r < 9, choice r ∈ candidates r) ∧ g = buildGrid choice ∧
        colsOK g ∧ boxesOK g ∧ hasZeroInFirstColumns g = true := by
  rw [solveFixed_sols]
  have hinit : initState.sols = [] := rfl
  rw [hinit, List.nil_append]
  rw [completions_char candidates rowOrder rowOrder_nodup initState g]
  constructor
  · rintro ⟨choice, h1, _, h3, h4, h5⟩
    have hg : g = buildGrid choice := by rw [h4, overwrite_initState]
    have hgv : ∀ r c, r < 9 → c < 9 → g r c = (choice r).getD c 0 := by
      intro r c hr hcc
      rw [hg]
      exact if_pos ⟨hr, hcc⟩
    refine ⟨choice, fun r hr => h1 r (mem_rowOrder.mpr hr), hg, ?_, ?_, h5⟩
    · intro c hcc r hr r' hr' hne
      rw [hgv r c hr hcc, hgv r' c hr' hcc]
      exact h3 r (mem_rowOrder.mpr hr) r' (mem_rowOrder.mpr hr') hne c hcc c hcc (Or.inl rfl)
    · intro r hr c hcc r' hr' c' hcc' hne hbox
      rw [hgv r c hr hcc, hgv r' c' hr' hcc']
      rcases hne with hne | hne
      · exact h3 r (mem_rowOrder.mpr hr) r' (mem_rowOrder.mpr hr') hne c hcc c' hcc'
          (Or.inr hbox)
      · by_cases hrr : r = r'
        · subst hrr
          have hmem := h1 r (mem_rowOrder.mpr hr)
          have hprop := hc r hr (choice r) hmem
          exact nodup_getD_ne hprop.1 hprop.2 hcc hcc' hne
        · exact h3 r (mem_rowOrder.mpr hr) r' (mem_rowOrder.mpr hr') hrr c hcc c' hcc'
            (Or.inr hbox)
  · rintro ⟨choice, h1, hg, hcols, hboxes, h5⟩
    have hgv : ∀ r c, r < 9 → c < 9 → g r c = (choice r).getD c 0 := by
      intro r c hr hcc
      rw [hg]
      exact if_pos ⟨hr, hcc⟩
    refine ⟨choice, ?_, ?_, ?_, ?_, h5⟩
    · intro r hr; exact h1 r (mem_rowOrder.mp hr)
    · intro r _; exact Ok_initState r (choice r)
    · intro r hr r' hr' hne c hcc c' hcc' hor
      have hr9 := mem_rowOrder.mp hr
      have hr9' := mem_rowOrder.mp hr'
      rw [← hgv r c hr9 hcc, ← hgv r' c' hr9' hcc']
      rcases hor with rfl | hbox
      · exact hcols c hcc r hr9 r' hr9' hne
      · exact hboxes r hr9 c hcc r' hr9' c' hcc' (Or.inl hne) hbox
    · rw [hg, ← overwrite_initState]

/-- Digit-by-digit modular accumulation computes the remainder of the full
base-10 value. -/
theorem foldl_mod (d : Nat) : ∀ (s : DigitStr) (a : Nat),
    s.foldl (fun remainder c => (remainder * 10 + c) % d) (a % d) =
      (s.foldl (fun acc c => acc * 10 + c) a) % d := by
  intro s
  induction s with
  | nil => intro a; rfl
  | cons c s ih =>
      intro a
      rw [List.foldl_cons, List.foldl_cons]
      have hstep : (a % d * 10 + c) % d = (a * 10 + c) % d := by
        conv_lhs => rw [Nat.add_mod, Nat.mul_mod, Nat.mod_mod _ _]
        conv_rhs => rw [Nat.add_mod, Nat.mul_mod]
      rw [← ih (a * 10 + c), hstep]

theorem remainder_eq_strValue_mod (d : Nat) (s : DigitStr) :
    s.foldl (fun remainder c => (remainder * 10 + c) % d) 0 = strValue s % d := by
  have h0 : (0 : Nat) % d = 0 := Nat.zero_mod d
  rw [strValue, ← foldl_mod d s 0, h0]

/-- C5: for every list of digit strings and every positive modulus, the
divisibility filter retains a string exactly when its base-10 value has
remainder 0 modulo the candidate divisor — the digit-by-digit modular
accumulation computes the true remainder — and every discarded string has
non-zero remainder. -/
theorem divisibility_filter_correct (options : List DigitStr) (d : Nat)
    (hd : 0 < d) (s : DigitStr) :
    (s ∈ filterDivisibleByCandidate options d ↔ s ∈ options ∧ strValue s % d = 0) ∧
    (s ∈ options ∧ s ∉ filterDivisibleByCandidate options d → strValue s % d ≠ 0) := by
  have hmem : s ∈ filterDivisibleByCandidate options d ↔
      s ∈ options ∧ strValue s % d = 0 := by
    rw [filterDivisibleByCandidate, List.mem_filter, remainder_eq_strValue_mod, beq_iff_eq]
  refine ⟨hmem, ?_⟩
  rintro ⟨hin, hout⟩ hzero
  exact hout (hmem.mpr ⟨hin, hzero⟩)

/-- Witness for C5: the spec's scenario, divisor 9 retains `"123456789"`
(digit sum 45). -/
theorem divisibility_filter_correct_witness :
    0 < 9 ∧
    (([1,2,3,4,5,6,7,8,9] : DigitStr) ∈
        filterDivisibleByCandidate [[1,2,3,4,5,6,7,8,9]] 9 ↔
      ([1,2,3,4,5,6,7,8,9] : DigitStr) ∈ [[1,2,3,4,5,6,7,8,9]] ∧
        strValue [1,2,3,4,5,6,7,8,9] % 9 = 0) ∧
    (([1,2,3,4,5,6,7,8,9] : DigitStr) ∈ [[1,2,3,4,5,6,7,8,9]] ∧
        ([1,2,3,4,5,6,7,8,9] : DigitStr) ∉ filterDivisibleByCandidate [[1,2,3,4,5,6,7,8,9]] 9 →
      strValue [1,2,3,4,5,6,7,8,9] % 9 ≠ 0) :=
  ⟨by decide,
    (divisibility_filter_correct [[1,2,3,4,5,6,7,8,9]] 9 (by decide) [1,2,3,4,5,6,7,8,9]).1,
    (divisibility_filter_correct [[1,2,3,4,5,6,7,8,9]] 9 (by decide) [1,2,3,4,5,6,7,8,9]).2⟩

/-- C7: `filterByColumn` returns exactly the subsequence whose character at
the given position equals the given symbol, `filterDisallowedValues`
exactly the subsequence whose character at the given position avoids the
forbidden set; both results are subsequences of the input, hence never
larger. -/
theorem position_filters_exact (numbers : List DigitStr) (column : Nat)
    (value : Nat) (disallowedValues : List Nat) (s : DigitStr) :
    (s ∈ filterByColumn numbers column value ↔
      s ∈ numbers ∧ s.getD column 0 = value) ∧
    (s ∈ filterDisallowedValues numbers column disallowedValues ↔
      s ∈ numbers ∧ s.getD column 0 ∉ disallowedValues) ∧
    List.Sublist (filterByColumn numbers column value) numbers ∧
    List.Sublist (filterDisallowedValues numbers column disallowedValues) numbers ∧
    (filterByColumn numbers column value).length ≤ numbers.length ∧
    (filterDisallowedValues numbers column disallowedValues).length ≤ numbers.length := by
  refine ⟨?_, ?_, List.filter_sublist numbers, List.filter_sublist numbers,
    (List.filter_sublist numbers).length_le, (List.filter_sublist numbers).length_le⟩
  · rw [filterByColumn, List.mem_filter, beq_iff_eq]
  · rw [filterDisallowedValues, List.mem_filter]
    constructor
    · rintro ⟨h1, h2⟩
      refine ⟨h1, fun hmem => ?_⟩
      have hb : disallowedValues.contains (s.getD column 0) = true := List.elem_iff.mpr hmem
      rw [hb] at h2
      simp at h2
    · rintro ⟨h1, h2⟩
      refine ⟨h1, ?_⟩
      cases hb : disallowedValues.contains (s.getD column 0)
      · rfl
      · exact absurd (List.elem_iff.mp hb) h2

/-- Folding digits into the occurrence bit mask sets exactly the bits of
the digits present. -/
theorem foldl_or_testBit : ∀ (x : List Nat) (a d : Nat),
    ((x.foldl (fun m c => m ||| (1 <<< c)) a).testBit d = true) ↔
      (a.testBit d = true ∨ d ∈ x) := by
  intro x
  induction x with
  | nil => intro a d; simp
  | cons c x ih =>
      intro a d
      rw [List.foldl_cons, ih, testBit_or_shift, List.mem_cons]
      constructor
      · rintro ((h | h) | h)
        · exact Or.inl h
        · exact Or.inr (Or.inl h.symm)
        · exact Or.inr (Or.inr h)
      · rintro (h | (h | h))
        · exact Or.inl (Or.inl h)
        · exact Or.inl (Or.inr h.symm)
        · exact Or.inr h

/-- A string containing every required digit passes the required-digit
check. -/
theorem containsRequiredDigits_of_subset {number : DigitStr} {req : List Nat}
    (h : ∀ r ∈ req, r ∈ number) : containsRequiredDigits number req = true := by
  rw [containsRequiredDigits]
  rw [List.all_eq_true]
  intro d hd
  rw [and_shift_ne]
  exact (foldl_or_testBit number 0 d).mpr (Or.inr (h d hd))

theorem genFor_eq_permutations {s : Nat}
    (hsub : ∀ r ∈ requiredDigits, r ∈ digitsFor s) :
    genFor s = (digitsFor s).permutations := by
  rw [genFor]
  apply List.filter_eq_self.mpr
  intro p hp
  have hperm : p.Perm (digitsFor s) := List.mem_permutations.mp hp
  exact containsRequiredDigits_of_subset fun r hr => hperm.mem_iff.mpr (hsub r hr)

/-- The list of skip digits actually iterated by the generation loop. -/
theorem skip_digits_eq :
    alphabet.filter (fun s => !(requiredDigits.contains s)) = [1, 3, 4, 6, 7, 8, 9] := by
  decide

theorem digitsFor_facts : ∀ s ∈ [1, 3, 4, 6, 7, 8, 9],
    (digitsFor s).length = 9 ∧ (digitsFor s).Nodup ∧
      (∀ r ∈ requiredDigits, r ∈ digitsFor s) := by
  decide

theorem flatMap_const_length (l : List Nat) (f : Nat → List DigitStr) (k : Nat)
    (h : ∀ s ∈ l, (f s).length = k) : (l.flatMap f).length = l.length * k := by
  induction l with
  | nil => simp
  | cons a l ih =>
      rw [List.flatMap_cons, List.length_append, h a (List.mem_cons_self a l),
        ih (fun s hs => h s (List.mem_cons.mpr (Or.inr hs))), List.length_cons]
      ring

theorem genFor_length : ∀ s ∈ [1, 3, 4, 6, 7, 8, 9], (genFor s).length = 362880 := by
  intro s hs
  rw [genFor_eq_permutations (digitsFor_facts s hs).2.2, List.length_permutations,
    (digitsFor_facts s hs).1]
  norm_num [Nat.factorial]

/-- C4: with alphabet `0..9` and required digits `{0,2,5}`, the generator
produces exactly `7 × 9! = 2540160` candidate strings, each with nine
pairwise-distinct digits containing every required digit. -/
theorem generator_count_and_shape :
    validNumbers.length = 2540160 ∧
    ∀ x ∈ validNumbers, x.length = 9 ∧ x.Nodup ∧ ∀ r ∈ requiredDigits, r ∈ x := by
  constructor
  · rw [validNumbers, skip_digits_eq, flatMap_const_length _ genFor 362880 genFor_length]
    rfl
  · intro x hx
    rw [validNumbers, skip_digits_eq, List.mem_flatMap] at hx
    rcases hx with ⟨s, hs, hxs⟩
    have hxp : x ∈ (digitsFor s).permutations := by
      rw [genFor_eq_permutations (digitsFor_facts s hs).2.2] at hxs
      exact hxs
    have hperm : x.Perm (digitsFor s) := List.mem_permutations.mp hxp
    refine ⟨?_, ?_, ?_⟩
    · rw [hperm.length_eq, (digitsFor_facts s hs).1]
    · exact hperm.nodup_iff.mpr (digitsFor_facts s hs).2.1
    · intro r hr
      exact hperm.mem_iff.mpr ((digitsFor_facts s hs).2.2 r hr)

/-- C9: for every excluded symbol outside the required set, every
permutation of the 9-symbol sub-alphabet passes the required-digit check,
so the embedded filter discards nothing and the generator shard equals the
bare permutation enumeration. -/
theorem required_filter_redundant (s : Nat) (hs : s ∈ alphabet)
    (hreq : s ∉ requiredDigits) :
    (∀ x ∈ (digitsFor s).permutations, containsRequiredDigits x requiredDigits = true) ∧
    genFor s = (digitsFor s).permutations := by
  have hsub : ∀ r ∈ requiredDigits, r ∈ digitsFor s := by
    intro r hr
    rw [digitsFor, List.mem_filter]
    have hr10 : r ∈ alphabet := by
      have hcases : r = 0 ∨ r = 2 ∨ r = 5 := by
        simpa [requiredDigits] using hr
      rcases hcases with rfl | rfl | rfl <;> decide
    refine ⟨hr10, ?_⟩
    rw [bne_iff_ne]
    intro he
    exact hreq (he ▸ hr)
  refine ⟨?_, genFor_eq_permutations hsub⟩
  intro x hx
  have hperm : x.Perm (digitsFor s) := List.mem_permutations.mp hx
  exact containsRequiredDigits_of_subset fun r hr => hperm.mem_iff.mpr (hsub r hr)

/-- Witness for C9: excluded symbol 1 is in the alphabet and not required. -/
theorem required_filter_redundant_witness :
    (1 ∈ alphabet) ∧ (1 ∉ requiredDigits) ∧
    ((∀ x ∈ (digitsFor 1).permutations, containsRequiredDigits x requiredDigits = true) ∧
      genFor 1 = (digitsFor 1).permutations) :=
  ⟨by decide, by decide, required_filter_redundant 1 (by decide) (by decide)⟩

theorem filterRowsLoop_none (d : Nat) :
    ∀ basePuzzle : List (List DigitStr),
      (∃ row ∈ basePuzzle, filterDivisibleByCandidate row d = []) →
      filterRowsLoop d basePuzzle = none := by
  intro basePuzzle
  induction basePuzzle with
  | nil =>
      rintro ⟨row, hrow, _⟩
      exact absurd hrow (List.not_mem_nil row)
  | cons row rest ih =>
      rintro ⟨row0, hrow0, hempty⟩
      rw [filterRowsLoop]
      by_cases hfirst : (filterDivisibleByCandidate row d).isEmpty = true
      · simp only [hfirst, if_true]
      · rw [if_neg hfirst]
        have hrest : ∃ r ∈ rest, filterDivisibleByCandidate r d = [] := by
          rcases List.mem_cons.mp hrow0 with rfl | hr
          · exact absurd (by rw [hempty]; rfl) hfirst
          · exact ⟨row0, hr, hempty⟩
        rw [ih hrest]

/-- C8: if divisibility filtering leaves some row of the base puzzle empty,
the iteration for that divisor invokes the solver zero times and produces
no result (the loop then advances to the next divisor); the base puzzle
itself is recomputed from scratch each iteration and is never mutated. -/
theorem empty_row_skips_solver (basePuzzle : List (List DigitStr)) (d : Nat)
    (row : List DigitStr) (hrow : row ∈ basePuzzle)
    (hempty : filterDivisibleByCandidate row d = []) :
    runDivisor basePuzzle d = none ∧ solverInvocations basePuzzle d = 0 ∧
      solutionsFor basePuzzle d = [] := by
  have hnone : filterRowsLoop d basePuzzle = none :=
    filterRowsLoop_none d basePuzzle ⟨row, hrow, hempty⟩
  refine ⟨?_, ?_, ?_⟩
  · rw [runDivisor, hnone]
  · rw [solverInvocations, hnone]
  · rw [solutionsFor, runDivisor, hnone]

/-- Witness for C8: a one-row base puzzle whose single candidate `"1"` is
not divisible by 3. -/
theorem empty_row_skips_solver_witness :
    ([[1]] : List DigitStr) ∈ [[[1]]] ∧
    filterDivisibleByCandidate [[1]] 3 = [] ∧
    (runDivisor [[[1]]] 3 = none ∧ solverInvocations [[[1]]] 3 = 0 ∧
      solutionsFor [[[1]]] 3 = []) :=
  ⟨by decide, by decide,
    empty_row_skips_solver [[[1]]] 3 [[1]] (by decide) (by decide)⟩

/-- C1: if the divisor loop reports `d` (the first enumerated divisor with
a non-empty solution set), then every enumerated divisor larger than `d`
(in `[337, 12345678]` with last digit 1, 3, 7 or 9) yields an empty
solution set: the enumeration is strictly decreasing, so the first hit is
the maximum. -/
theorem divisor_first_hit_maximal (basePuzzle : List (List DigitStr)) (d : Nat)
    (h : answerDivisor basePuzzle = some d) (d' : Nat) (h1 : 337 ≤ d')
    (h2 : d' ≤ 12345678) (h3 : lastDigitOk d' = true) (h4 : d < d') :
    solutionsFor basePuzzle d' = [] := by
  have hmem : d' ∈ candidateGCDs := mem_candidateGCDs.mpr ⟨h1, h2, h3⟩
  have hfail := find?_pairwise_max candidateGCDs_pairwise h d' hmem h4
  have hiso : (solutionsFor basePuzzle d').isEmpty = true := by
    cases hcase : (solutionsFor basePuzzle d').isEmpty
    · rw [hcase] at hfail; simp at hfail
    · rfl
  exact List.isEmpty_iff.mp hiso

/-- C10: every modulus the divisor loop passes to the filter lies in
`[337, 12345678]`, hence is positive (no division by zero); every
accumulation step from a remainder below the modulus with a decimal digit
stays at most 123456789, far below `2^31`, so the `int` arithmetic never
overflows, and the running remainder always stays below the modulus. -/
theorem modulus_bounds_safe :
    ∀ d ∈ candidateGCDs, 337 ≤ d ∧ d ≤ 12345678 ∧ 0 < d ∧
      (∀ r c, r < d → c ≤ 9 → r * 10 + c ≤ 123456789 ∧ r * 10 + c < 2 ^ 31) ∧
      (∀ r c : Nat, (r * 10 + c) % d < d) := by
  intro d hd
  rcases mem_candidateGCDs.mp hd with ⟨hb1, hb2, _⟩
  have hpos : 0 < d := by omega
  have hpow : (2 : Nat) ^ 31 = 2147483648 := by norm_num
  refine ⟨hb1, hb2, hpos, ?_, ?_⟩
  · intro r c hr hc
    rw [hpow]
    omega
  · intro r c
    exact Nat.mod_lt _ hpos

/-- Witness for C10: the largest enumerated divisor, 12345677, with the
accumulation step instantiated at remainder 5 and digit 3. -/
theorem modulus_bounds_safe_witness :
    (12345677 ∈ candidateGCDs) ∧
    (337 ≤ 12345677 ∧ 12345677 ≤ 12345678 ∧ 0 < 12345677 ∧
      (∀ r c, r < 12345677 → c ≤ 9 → r * 10 + c ≤ 123456789 ∧ r * 10 + c < 2 ^ 31) ∧
      (∀ r c : Nat, (r * 10 + c) % 12345677 < 12345677)) ∧
    (5 * 10 + 3 ≤ 123456789 ∧ 5 * 10 + 3 < 2 ^ 31) ∧
    (5 * 10 + 3) % 12345677 < 12345677 :=
  ⟨by decide, modulus_bounds_safe 12345677 (by decide),
    (modulus_bounds_safe 12345677 (by decide)).2.2.2.1 5 3 (by decide) (by decide),
    (modulus_bounds_safe 12345677 (by decide)).2.2.2.2 5 3⟩

/-- A concrete base puzzle for exercising the divisor loop: each row has a
single candidate whose base-10 value is a multiple of 12345673 (digit
entries are plain machine integers, as in the solver's `vector<int>` rows);
the nine values have greatest common divisor exactly 12345673, the rows are
pairwise column-distinct and box-compatible, and row 0 puts a zero in the
first column. -/
def witnessBase : List (List DigitStr) :=
  [[[0, 0, 0, 0, 0, 0, 123435, 200, 173]],
   [[1, 1, 1, 1, 1, 1, 123436, 201, 120]],
   [[2, 2, 2, 2, 2, 2, 246893, 202, 140]],
   [[3, 3, 3, 3, 3, 3, 123437, 203, 114]],
   [[4, 4, 4, 4, 4, 4, 246894, 204, 134]],
   [[5, 5, 5, 5, 5, 5, 123438, 205, 108]],
   [[6, 6, 6, 6, 6, 6, 246895, 206, 128]],
   [[7, 7, 7, 7, 7, 7, 123439, 207, 102]],
   [[8, 8, 8, 8, 8, 8, 246896, 208, 122]]]

/-- Witness for C1: on `witnessBase` the loop's first hit is 12345673, and
the larger enumerated divisor 12345677 indeed yields an empty solution
set. -/
theorem divisor_first_hit_maximal_witness :
    answerDivisor witnessBase = some 12345673 ∧
    337 ≤ 12345677 ∧ 12345677 ≤ 12345678 ∧ lastDigitOk 12345677 = true ∧
    12345673 < 12345677 ∧ solutionsFor witnessBase 12345677 = [] :=
  ⟨by decide, by decide, by decide, by decide, by decide,
    divisor_first_hit_maximal witnessBase 12345673 (by decide) 12345677
      (by decide) (by decide) (by decide) (by decide)⟩

/-- C2: the solution accumulator ends containing exactly the complete
grids obtainable by choosing one candidate per row from the given
(divisor-filtered) row lists such that every column and every 3×3 box has
pairwise-distinct symbols and the symbol zero appears in the first three
columns; in particular the search enumerates all such grids rather than
stopping at the first. -/
theorem solver_enumerates_exactly (candidates : Nat → List DigitStr)
    (hc : ∀ r < 9, ∀ cand ∈ candidates r, cand.length = 9 ∧ cand.Nodup) (g : Grid) :
    g ∈ (solveFixed candidates rowOrder initState).sols ↔
      ∃ choice : Nat → DigitStr,
        (∀ r < 9, choice r ∈ candidates r) ∧ g = buildGrid choice ∧
        colsOK g ∧ boxesOK g ∧ hasZeroInFirstColumns g = true :=
  sols_mem_iff candidates hc g

/-- C6: after the solver returns from trying any candidate at any
recursion depth — whether the trial was rejected for conflict or committed
and recursed — the nine column masks and nine box masks are identical to
their values immediately before the candidate was tried; likewise every
full solver call leaves the masks exactly as it found them. -/
theorem masks_restored_after_trial (candidates : Nat → List DigitStr) :
    (∀ (rows : List Nat) (r : Nat) (acc : SState) (cand : DigitStr),
      (tryStep candidates rows r acc cand).colMask = acc.colMask ∧
        (tryStep candidates rows r acc cand).boxMask = acc.boxMask) ∧
    (∀ (rows : List Nat) (st : SState),
      (solveFixed candidates rows st).colMask = st.colMask ∧
        (solveFixed candidates rows st).boxMask = st.boxMask) :=
  ⟨fun rows r acc cand =>
      ⟨tryStep_colMask candidates rows r acc cand, tryStep_boxMask candidates rows r acc cand⟩,
    fun rows st =>
      ⟨solveFixed_colMask candidates rows st, solveFixed_boxMask candidates rows st⟩⟩

/-- The nine rows of a standard shifted Latin grid on digits 0-8, used as a
concrete single-candidate puzzle (row `r` is the cyclic shift of
`012345678` by `[0,3,6,1,4,7,2,5,8]` at `r`). -/
def stdRows : List DigitStr :=
  [[0, 1, 2, 3, 4, 5, 6, 7, 8],
   [3, 4, 5, 6, 7, 8, 0, 1, 2],
   [6, 7, 8, 0, 1, 2, 3, 4, 5],
   [1, 2, 3, 4, 5, 6, 7, 8, 0],
   [4, 5, 6, 7, 8, 0, 1, 2, 3],
   [7, 8, 0, 1, 2, 3, 4, 5, 6],
   [2, 3, 4, 5, 6, 7, 8, 0, 1],
   [5, 6, 7, 8, 0, 1, 2, 3, 4],
   [8, 0, 1, 2, 3, 4, 5, 6, 7]]

/-- Single-candidate row lists built from `stdRows`. -/
def witnessCands : Nat → List DigitStr := fun r => [stdRows.getD r []]

/-- The grid assembled from `stdRows`. -/
def stdGrid : Grid := buildGrid fun r => stdRows.getD r []

/-- Witness for C2: the single-candidate puzzle built from the shifted
Latin grid. -/
theorem solver_enumerates_exactly_witness :
    (∀ r < 9, ∀ cand ∈ witnessCands r, cand.length = 9 ∧ cand.Nodup) ∧
    (stdGrid ∈ (solveFixed witnessCands rowOrder initState).sols ↔
      ∃ choice : Nat → DigitStr,
        (∀ r < 9, choice r ∈ witnessCands r) ∧ stdGrid = buildGrid choice ∧
        colsOK stdGrid ∧ boxesOK stdGrid ∧ hasZeroInFirstColumns stdGrid = true) :=
  ⟨by decide, solver_enumerates_exactly witnessCands (by decide) stdGrid⟩

/-- Digit `d` occurs in row `r` of grid `g`. -/
abbrev inRow (g : Grid) (r d : Nat) : Prop := ∃ c < 9, g r c = d

/-- Digit `d` occurs in column `c` of grid `g`. -/
abbrev inCol (g : Grid) (c d : Nat) : Prop := ∃ r < 9, g r c = d

/-- Digit `d` occurs in box `b` of grid `g`. -/
abbrev inBox (g : Grid) (b d : Nat) : Prop := ∃ r < 9, ∃ c < 9, boxIndex r c = b ∧ g r c = d

/-- All 27 units (rows, columns, boxes) of the grid contain an identical
set of digits. -/
def unitsSameNineSet (g : Grid) : Prop :=
  ∀ d : Nat,
    (∀ r < 9, ∀ r' < 9, (inRow g r d ↔ inRow g r' d)) ∧
    (∀ r < 9, ∀ c < 9, (inCol g c d ↔ inRow g r d)) ∧
    (∀ r < 9, ∀ b < 9, (inBox g b d ↔ inRow g r d))

/-- C3 (amended): every accepted solution has pairwise-distinct symbols in
each row (because every candidate string has nine distinct digits), each
column and each 3×3 box. -/
theorem solver_units_distinct (candidates : Nat → List DigitStr)
    (hc : ∀ r < 9, ∀ cand ∈ candidates r, cand.length = 9 ∧ cand.Nodup) (g : Grid)
    (hmem : g ∈ (solveFixed candidates rowOrder initState).sols) :
    rowsOK g ∧ colsOK g ∧ boxesOK g := by
  rcases (sols_mem_iff candidates hc g).mp hmem with ⟨choice, h1, hg, hcols, hboxes, _⟩
  refine ⟨?_, hcols, hboxes⟩
  intro r hr c hcc c' hcc' hne
  have hgv : ∀ cx, cx < 9 → g r cx = (choice r).getD cx 0 := by
    intro cx hcx
    rw [hg]
    exact if_pos ⟨hr, hcx⟩
  rw [hgv c hcc, hgv c' hcc']
  have hp := hc r hr (choice r) (h1 r hr)
  exact nodup_getD_ne hp.1 hp.2 hcc hcc' hne

/-- Witness for C3's amended statement: the shifted Latin grid is accepted
and all its units have pairwise-distinct entries. -/
theorem solver_units_distinct_witness :
    (∀ r < 9, ∀ cand ∈ witnessCands r, cand.length = 9 ∧ cand.Nodup) ∧
    stdGrid ∈ (solveFixed witnessCands rowOrder initState).sols ∧
    (rowsOK stdGrid ∧ colsOK stdGrid ∧ boxesOK stdGrid) := by
  have hc : ∀ r < 9, ∀ cand ∈ witnessCands r, cand.length = 9 ∧ cand.Nodup := by decide
  have hmem : stdGrid ∈ (solveFixed witnessCands rowOrder initState).sols :=
    (sols_mem_iff witnessCands hc stdGrid).mpr
      ⟨fun r => stdRows.getD r [], by decide, rfl, by decide, by decide, by decide⟩
  exact ⟨hc, hmem, solver_units_distinct witnessCands hc stdGrid hmem⟩

/-- The rows of `stdRows` with the cell in row 0, column 8 changed from 8
to 9: row 0 then uses the digit set `{0,..,7,9}` while the other rows use
`{0,..,8}`, yet all columns and boxes still have pairwise-distinct
entries. -/
def ceRows : List DigitStr :=
  [[0, 1, 2, 3, 4, 5, 6, 7, 9],
   [3, 4, 5, 6, 7, 8, 0, 1, 2],
   [6, 7, 8, 0, 1, 2, 3, 4, 5],
   [1, 2, 3, 4, 5, 6, 7, 8, 0],
   [4, 5, 6, 7, 8, 0, 1, 2, 3],
   [7, 8, 0, 1, 2, 3, 4, 5, 6],
   [2, 3, 4, 5, 6, 7, 8, 0, 1],
   [5, 6, 7, 8, 0, 1, 2, 3, 4],
   [8, 0, 1, 2, 3, 4, 5, 6, 7]]

/-- Single-candidate row lists built from `ceRows`. -/
def ceCands : Nat → List DigitStr := fun r => [ceRows.getD r []]

/-- The grid assembled from `ceRows`. -/
def ceGrid : Grid := buildGrid fun r => ceRows.getD r []

/-- Counterexample to C3 as stated: the solver accepts `ceGrid` (all its
candidate strings have nine pairwise-distinct digits, all columns and
boxes are distinct, and a zero sits in the first column), yet its 27 units
do not share an identical nine-digit set: digit 9 occurs in row 0 but not
in row 1. -/
theorem units_same_set_counterexample :
    ceGrid ∈ (solveFixed ceCands rowOrder initState).sols ∧
    (∀ r < 9, ∀ cand ∈ ceCands r, cand.length = 9 ∧ cand.Nodup) ∧
    ¬ unitsSameNineSet ceGrid := by
  have hc : ∀ r < 9, ∀ cand ∈ ceCands r, cand.length = 9 ∧ cand.Nodup := by decide
  have hmem : ceGrid ∈ (solveFixed ceCands rowOrder initState).sols :=
    (sols_mem_iff ceCands hc ceGrid).mpr
      ⟨fun r => ceRows.getD r [], by decide, rfl, by decide, by decide, by decide⟩
  refine ⟨hmem, hc, ?_⟩
  intro h
  have h9 := (h 9).1 0 (by norm_num) 1 (by norm_num)
  have hin : inRow ceGrid 0 9 := ⟨8, by norm_num, by decide⟩
  have hnot : ¬ inRow ceGrid 1 9 := by decide
  exact hnot (h9.mp hin)
